import Mathlib

/-!
Shallow embedding of `src/build_stats_functions/build_profile/profile.py`
(the self-time computation engine for build-profile trace events).

Modelled functions: the per-record loop of `get_data` (grouping records by
thread id and building the `cats` category-to-names table, together with the
enclosing `except Exception` wrapper that re-raises everything as
`UnableToUnzipFileError`), `get_times` (the self-time computation), and
`create_event_objects` (the aggregator).

Modelling conventions:
* A trace record is a structure of the optional fields the code consumes
  (`name`, `cat`, `ph`, `ts`, `dur`, `tid`); a missing field is `none`, and a
  Python `d["k"]` access on a missing key is the `keyError` outcome.
* Python dicts are association lists; assignment keeps the position of an
  existing key and appends a new one, matching dict insertion-order semantics.
* Python's `str(curr)` identity key for the `seen` set is modelled by
  structural equality of the event structure (the field tuple).
* Integers are `Int` (Python ints are unbounded); the float division
  `float(x) / 1000000` of the aggregator is modelled as exact division in `ℚ`.
-/

namespace BuildProfile

/-- The Python exceptions that the modelled code can raise.  `keyError` is a
raw `KeyError` from an unguarded `d["k"]` access. -/
inductive PyError where
  | incorrectProfileFormat
  | unableToUnzipFile
  | keyError
  deriving DecidableEq, Repr

/-- One trace-event record, restricted to the fields the code consumes.
Every field is optional in the input document. -/
structure Event where
  name : Option String
  cat : Option String
  ph : Option String
  ts : Option Int
  dur : Option Int
  tid : Option String
  deriving DecidableEq, Repr

/-- Association-list lookup, modelling `d[k]` / `k in d` on a Python dict. -/
def alookup {β : Type} : List (String × β) → String → Option β
  | [], _ => none
  | (k, v) :: rest, key => if k = key then some v else alookup rest key

/-- Association-list assignment `d[k] = v`: an existing key keeps its
position, a new key is appended, matching Python dict insertion order. -/
def aset {β : Type} : List (String × β) → String → β → List (String × β)
  | [], key, v => [(key, v)]
  | (k, w) :: rest, key, v =>
      if k = key then (key, v) :: rest else (k, w) :: aset rest key v

/-- `event_times[name] = event_times.get(name, 0) + v`, the accumulation
pattern `if t not in d: d[t] = 0` followed by `d[t] += v`. -/
def addTime (times : List (String × Int)) (n : String) (v : Int) :
    List (String × Int) :=
  aset times n ((alookup times n).getD 0 + v)

/-! ### `get_data`: the per-record grouping loop -/

/-- The body of `get_data`'s `for line in data["traceEvents"]` loop, folded
over the record list.  State: the `cats` table (category to list of names —
note the direction: `cats[line["cat"]].append(line["name"])`) and the
`threads` table (tid to records in arrival order).  `line["name"]` inside the
`cat` branch and the missing-`tid` check follow the source order. -/
def get_data_loop (cats : List (String × List String))
    (threads : List (String × List Event)) :
    List Event →
      Except PyError (List (String × List String) × List (String × List Event))
  | [] => .ok (cats, threads)
  | line :: rest =>
      let step : Except PyError (List (String × List String)) :=
        match line.cat with
        | none => .ok cats
        | some c =>
            match line.name with
            | none => .error .keyError
            | some n => .ok (aset cats c ((alookup cats c).getD [] ++ [n]))
      match step with
      | .error e => .error e
      | .ok cats1 =>
          match line.tid with
          | none => .error .incorrectProfileFormat
          | some a =>
              get_data_loop cats1
                (aset threads a ((alookup threads a).getD [] ++ [line])) rest

/-- `get_data`, from the point where the decoded `traceEvents` list is in
hand (download, gunzip and top-level JSON checks are the excluded I/O layer).
The whole loop sits inside `try: ... except Exception as exc: raise
UnableToUnzipFileError() from exc`, so every error the loop raises reaches
the caller as `unableToUnzipFile`; the `cats` table is discarded — the
function returns only the `threads` grouping (paired in the source with
`build_id`, which this core never computes from). -/
def get_data (traceEvents : List Event) :
    Except PyError (List (String × List Event)) :=
  match get_data_loop [] [] traceEvents with
  | .error _ => .error .unableToUnzipFile
  | .ok (_, threads) => .ok threads

/-! ### `get_times`: the self-time computation -/

/-- Per-thread mutable state of `get_times`: `total_time`, `all_events`,
`event_times` and the `seen` set (here a list of events, membership standing
for `str(curr) in seen`). -/
structure ThreadState where
  totalTime : Int
  allEvents : List Event
  eventTimes : List (String × Int)
  seen : List Event
  deriving DecidableEq, Repr

def initThreadState : ThreadState := ⟨0, [], [], []⟩

/-- Whether a previously processed event `c` qualifies for subtraction from
the current event (interval `(low, high)`, duration `edur`): the source
condition `curr["ts"] > low and curr["ts"] < high and str(curr) not in seen
and curr["dur"] < event["dur"]`, for the given `seen`. -/
def qualifies (low high edur : Int) (seen : List Event) (c : Event) : Prop :=
  ∃ cts cdur, c.ts = some cts ∧ c.dur = some cdur ∧
    cts > low ∧ cts < high ∧ c ∉ seen ∧ cdur < edur

instance (low high edur : Int) (seen : List Event) (c : Event) :
    Decidable (qualifies low high edur seen c) := by
  unfold qualifies
  cases c.ts <;> cases c.dur <;> simp <;> infer_instance

/-- The backward scan `for i in range(len(all_events) - 1, -1, -1)`, as a
recursion over `all_events` already reversed.  State: `self_time` and `seen`.
Every element of `all_events` has `ts` and `dur` present (they are checked
before an event is appended), so the wildcard branch is unreachable. -/
def scanLoop (low high edur : Int) :
    List Event → Int × List Event → Int × List Event
  | [], st => st
  | c :: rest, (selfTime, seen) =>
      match c.ts, c.dur with
      | some cts, some cdur =>
          if cts > low ∧ cts < high ∧ c ∉ seen ∧ cdur < edur then
            scanLoop low high edur rest (selfTime - cdur, c :: seen)
          else
            scanLoop low high edur rest (selfTime, seen)
      | _, _ => scanLoop low high edur rest (selfTime, seen)

/-- The body of `get_times`' inner `for event in threads[thread]` loop.
Source order: missing `ph` raises; non-`"X"` phases are skipped; missing
`ts`/`dur` raises `IncorrectProfileFormatError`; `self_time = event["dur"]`;
`categories[event["name"]] = event["cat"]` (two unguarded accesses, so a
missing `name` or `cat` is a `KeyError`); the backward scan runs only under
`total_time > 0`; the event is appended to `all_events`; `total_time` grows
by `self_time`; the late `if "name" not in event` check is unreachable
(`name` was already accessed); `event_times[name] += self_time`. -/
def procEvent (cats : List (String × String)) (st : ThreadState) (e : Event) :
    Except PyError (List (String × String) × ThreadState) :=
  match e.ph with
  | none => .error .incorrectProfileFormat
  | some p =>
      if p = "X" then
        match e.ts, e.dur with
        | some ets, some edur =>
            match e.name with
            | none => .error .keyError
            | some nm =>
                match e.cat with
                | none => .error .keyError
                | some c =>
                    let cats1 := aset cats nm c
                    let scanned :=
                      if st.totalTime > 0 then
                        scanLoop ets (ets + edur) edur st.allEvents.reverse
                          (edur, st.seen)
                      else (edur, st.seen)
                    .ok (cats1,
                      { totalTime := st.totalTime + scanned.1
                        allEvents := st.allEvents ++ [e]
                        eventTimes := addTime st.eventTimes nm scanned.1
                        seen := scanned.2 })
        | _, _ => .error .incorrectProfileFormat
      else .ok (cats, st)

/-- One whole thread of `get_times`: fold `procEvent` over the thread's
events in arrival order. -/
def procThread (cats : List (String × String)) (st : ThreadState) :
    List Event → Except PyError (List (String × String) × ThreadState)
  | [] => .ok (cats, st)
  | e :: rest =>
      match procEvent cats st e with
      | .error err => .error err
      | .ok (cats1, st1) => procThread cats1 st1 rest

/-- The outer `for thread in threads` loop of `get_times`: `categories` is
shared across threads, per-thread state is fresh, and
`all_threads[thread] = event_times` after each thread. -/
def get_times_loop (cats : List (String × String))
    (allThreads : List (String × List (String × Int))) :
    List (String × List Event) →
      Except PyError
        (List (String × List (String × Int)) × List (String × String))
  | [] => .ok (allThreads, cats)
  | (tid, evs) :: rest =>
      match procThread cats initThreadState evs with
      | .error err => .error err
      | .ok (cats1, st) =>
          get_times_loop cats1 (aset allThreads tid st.eventTimes) rest

/-- `get_times(threads)`: returns the pair `[all_threads, categories]`. -/
def get_times (threads : List (String × List Event)) :
    Except PyError
      (List (String × List (String × Int)) × List (String × String)) :=
  get_times_loop [] [] threads

/-! ### `create_event_objects`: the aggregator -/

/-- One output row, with the keys the source writes. -/
structure OutputRecord where
  EVENT_NAME : String
  CATEGORY : String
  THREAD : String
  TIME_TAKEN : ℚ
  deriving DecidableEq, Repr

/-- The inner `for data in all_threads[line]` loop of `create_event_objects`:
one object per event name of the thread; `categories[data]` is an unguarded
dict access, so a missing name is a `KeyError`. -/
def threadObjects (categories : List (String × String)) (tid : String) :
    List (String × Int) → Except PyError (List OutputRecord)
  | [] => .ok []
  | (n, t) :: rest =>
      match alookup categories n with
      | none => .error .keyError
      | some c =>
          match threadObjects categories tid rest with
          | .error err => .error err
          | .ok objs =>
              .ok ({ EVENT_NAME := n, CATEGORY := c, THREAD := tid
                     TIME_TAKEN := (t : ℚ) / 1000000 } :: objs)

/-- The outer `for line in all_threads` loop of `create_event_objects`. -/
def allThreadObjects (categories : List (String × String)) :
    List (String × List (String × Int)) → Except PyError (List OutputRecord)
  | [] => .ok []
  | (tid, times) :: rest =>
      match threadObjects categories tid times with
      | .error err => .error err
      | .ok objs =>
          match allThreadObjects categories rest with
          | .error err => .error err
          | .ok objsRest => .ok (objs ++ objsRest)

/-- `create_event_objects(data)` with `data = [all_threads, categories]`
(the value `get_times` returns): one object per (thread, event-name) pair,
`TIME_TAKEN = float(self_time) / 1000000`. -/
def create_event_objects
    (data : List (String × List (String × Int)) × List (String × String)) :
    Except PyError (List OutputRecord) :=
  allThreadObjects data.2 data.1

/-! ### Observers of the subtraction behaviour

`scanSubs` records, instead of performing, the subtractions of one backward
scan; `eventSubs` and `threadSubs` lift it to one event / one whole thread.
They are related to the executable definitions by the lemmas below, so every
statement about them is a statement about `get_times`. -/

/-- The events a single backward scan subtracts, in scan order. -/
def scanSubs (low high edur : Int) :
    List Event → List Event → List Event
  | [], _ => []
  | c :: rest, seen =>
      match c.ts, c.dur with
      | some cts, some cdur =>
          if cts > low ∧ cts < high ∧ c ∉ seen ∧ cdur < edur then
            c :: scanSubs low high edur rest (c :: seen)
          else
            scanSubs low high edur rest seen
      | _, _ => scanSubs low high edur rest seen

/-- Sum of the recorded durations of a list of events (every subtracted
event has `dur` present). -/
def durSum (l : List Event) : Int :=
  (l.map (fun c => c.dur.getD 0)).sum

/-- The events subtracted while processing one event from state `st`:
empty unless the event is a fully-formed Complete event and the
`total_time > 0` gate is open. -/
def eventSubs (st : ThreadState) (e : Event) : List Event :=
  match e.ph, e.ts, e.dur, e.name, e.cat with
  | some p, some ets, some edur, some _, some _ =>
      if p = "X" ∧ st.totalTime > 0 then
        scanSubs ets (ets + edur) edur st.allEvents.reverse st.seen
      else []
  | _, _, _, _, _ => []

/-- All events subtracted over a whole thread, in subtraction order
(stopping where `get_times` would raise). -/
def threadSubs (cats : List (String × String)) (st : ThreadState) :
    List Event → List Event
  | [] => []
  | e :: rest =>
      match procEvent cats st e with
      | .error _ => []
      | .ok (cats1, st1) => eventSubs st e ++ threadSubs cats1 st1 rest

/-- The self-time `get_times` computes for one Complete event with
timestamp `ets` and duration `edur`, processed from state `st`. -/
def eventSelfTime (st : ThreadState) (ets edur : Int) : Int :=
  if st.totalTime > 0 then
    (scanLoop ets (ets + edur) edur st.allEvents.reverse (edur, st.seen)).1
  else edur

/-- Left-biased choice on options (`a` if present, else `b`). -/
def optOr {α : Type} : Option α → Option α → Option α
  | some a, _ => some a
  | none, b => b

/-- The category of the last Complete-phase event named `n`, later events
taking precedence. -/
def lastXCat (n : String) : List Event → Option String
  | [] => none
  | e :: rest =>
      match lastXCat n rest with
      | some c => some c
      | none => if e.ph = some "X" ∧ e.name = some n then e.cat else none

/-- All events of all threads, in processing order. -/
def joinEvents (threads : List (String × List Event)) : List Event :=
  threads.foldr (fun p acc => p.2 ++ acc) []

/-! ### Concrete records used as test inputs and witnesses -/

/-- The child of the spec's containment example: `ts=10, dur=20, name="C"`. -/
def evC : Event := ⟨some "C", some "catC", some "X", some 10, some 20, some "t"⟩

/-- The parent of the spec's containment example: `ts=0, dur=100, name="P"`. -/
def evP : Event := ⟨some "P", some "catP", some "X", some 0, some 100, some "t"⟩

/-- First of two overlapping 60µs children of one 100µs parent. -/
def evA60 : Event := ⟨some "A", some "ca", some "X", some 10, some 60, some "t"⟩

/-- Second of two overlapping 60µs children of one 100µs parent. -/
def evB60 : Event := ⟨some "B", some "cb", some "X", some 20, some 60, some "t"⟩

/-- A 100µs parent whose interval `[0,100)` contains both 60µs children. -/
def evP100 : Event := ⟨some "P", some "cp", some "X", some 0, some 100, some "t"⟩

/-- A Complete event with `ts`, `dur` and `cat` but no `name`. -/
def evNoName : Event := ⟨none, some "c", some "X", some 0, some 5, some "t"⟩

/-- A Complete event with no `dur`. -/
def evNoDur : Event := ⟨some "N", some "c", some "X", some 0, none, some "t"⟩

/-- A record with a `name` but no `tid` (and no `cat`). -/
def evNoTid : Event := ⟨some "N", none, some "M", none, none, none⟩

/-- An event with no `ph` field at all. -/
def evNoPh : Event := ⟨some "N", some "c", none, some 0, some 5, some "t"⟩

/-- A non-Complete record (`ph="M"`) carrying a category field. -/
def evOther : Event := ⟨some "N", some "A", some "M", none, none, some "T"⟩

/-- A Complete event with no `cat` field. -/
def evNoCat : Event := ⟨some "N", none, some "X", some 0, some 5, some "t"⟩

/-- A metadata event: `ph` present and different from `"X"`. -/
def evMeta : Event := ⟨some "M", some "cm", some "M", some 0, some 7, some "t"⟩

/-- The per-thread state after `get_times` has processed `evC` alone. -/
def stC : ThreadState := ⟨20, [evC], [("C", 20)], []⟩

/-- The per-thread state after `get_times` has processed `evC` then `evP`. -/
def stCP : ThreadState := ⟨100, [evC, evP], [("C", 20), ("P", 80)], [evC]⟩

/-! ### Lemmas about the association-list primitives -/

theorem alookup_aset_self {β : Type} (m : List (String × β)) (k : String)
    (v : β) : alookup (aset m k v) k = some v := by
  induction m with
  | nil => simp [aset, alookup]
  | cons p rest ih =>
      obtain ⟨a, b⟩ := p
      by_cases h : a = k <;> simp [aset, alookup, h, ih]

theorem alookup_aset_ne {β : Type} (m : List (String × β)) (k key : String)
    (v : β) (h : key ≠ k) : alookup (aset m k v) key = alookup m key := by
  induction m with
  | nil => simp [aset, alookup, Ne.symm h]
  | cons p rest ih =>
      obtain ⟨a, b⟩ := p
      by_cases ha : a = k
      · subst ha
        simp [aset, alookup, Ne.symm h]
      · simp [aset, alookup, ha, ih]

theorem alookup_aset_isSome {β : Type} (m : List (String × β))
    (k key : String) (v : β) (h : (alookup m key).isSome) :
    (alookup (aset m k v) key).isSome := by
  by_cases hk : key = k
  · subst hk
    simp [alookup_aset_self]
  · rw [alookup_aset_ne m k key v hk]
    exact h

theorem mem_aset {β : Type} {m : List (String × β)} {k : String} {v : β}
    {p : String × β} (h : p ∈ aset m k v) : p ∈ m ∨ p = (k, v) := by
  induction m with
  | nil => simp [aset] at h; simp [h]
  | cons q rest ih =>
      obtain ⟨a, b⟩ := q
      by_cases ha : a = k
      · subst ha
        simp [aset] at h
        rcases h with h | h
        · right; simp [h]
        · left; simp [h]
      · simp [aset, ha] at h
        rcases h with h | h
        · left; simp [h]
        · rcases ih h with h1 | h1
          · left; simp [h1]
          · right; exact h1

theorem mem_keys_addTime {times : List (String × Int)} {n m : String}
    {v : Int} (h : m ∈ (addTime times n v).map Prod.fst) :
    m = n ∨ m ∈ times.map Prod.fst := by
  unfold addTime at h
  simp only [List.mem_map] at h
  obtain ⟨p, hp, hfst⟩ := h
  rcases mem_aset hp with h1 | h1
  · right
    exact List.mem_map.mpr ⟨p, h1, hfst⟩
  · left
    rw [h1] at hfst
    exact hfst.symm

theorem alookup_addTime_self (times : List (String × Int)) (n : String)
    (v : Int) :
    alookup (addTime times n v) n = some ((alookup times n).getD 0 + v) := by
  unfold addTime
  exact alookup_aset_self times n _

theorem alookup_addTime_ne (times : List (String × Int)) (n m : String)
    (v : Int) (h : m ≠ n) :
    alookup (addTime times n v) m = alookup times m := by
  unfold addTime
  exact alookup_aset_ne times n m _ h

/-! ### The backward scan, characterised through `scanSubs` -/

theorem durSum_nil : durSum [] = 0 := rfl

theorem durSum_cons (c : Event) (l : List Event) :
    durSum (c :: l) = c.dur.getD 0 + durSum l := by
  simp [durSum]

theorem scanLoop_eq (low high edur : Int) (l : List Event) :
    ∀ (selfTime : Int) (seen : List Event),
    scanLoop low high edur l (selfTime, seen) =
      (selfTime - durSum (scanSubs low high edur l seen),
        (scanSubs low high edur l seen).reverse ++ seen) := by
  induction l with
  | nil => intro selfTime seen; simp [scanLoop, scanSubs, durSum]
  | cons c rest ih =>
      intro selfTime seen
      rcases hts : c.ts with _ | cts
      · simp [scanLoop, scanSubs, hts, ih]
      · rcases hdur : c.dur with _ | cdur
        · simp [scanLoop, scanSubs, hts, hdur, ih]
        · by_cases hq : cts > low ∧ cts < high ∧ c ∉ seen ∧ cdur < edur
          · simp only [scanLoop, scanSubs, hts, hdur, if_pos hq, ih,
              durSum_cons, List.reverse_cons, List.append_assoc,
              List.singleton_append, hdur, Option.getD_some, Prod.mk.injEq]
            refine ⟨by ring, ?_⟩
            simp
          · simp only [scanLoop, scanSubs, hts, hdur, if_neg hq, ih]

theorem scanSubs_nodup_disjoint (low high edur : Int) (l : List Event) :
    ∀ seen : List Event,
      (scanSubs low high edur l seen).Nodup ∧
        ∀ c ∈ scanSubs low high edur l seen, c ∉ seen := by
  induction l with
  | nil => intro seen; simp [scanSubs]
  | cons c rest ih =>
      intro seen
      rcases hts : c.ts with _ | cts
      · simpa [scanSubs, hts] using ih seen
      · rcases hdur : c.dur with _ | cdur
        · simpa [scanSubs, hts, hdur] using ih seen
        · by_cases hq : cts > low ∧ cts < high ∧ c ∉ seen ∧ cdur < edur
          · simp only [scanSubs, hts, hdur, if_pos hq]
            obtain ⟨ihnd, ihdis⟩ := ih (c :: seen)
            refine ⟨List.nodup_cons.mpr ⟨fun hc => ?_, ihnd⟩, ?_⟩
            · exact ihdis c hc (List.mem_cons_self c seen)
            · intro d hd
              rcases List.mem_cons.mp hd with h1 | h1
              · exact h1 ▸ hq.2.2.1
              · intro hds
                exact ihdis d h1 (List.mem_cons_of_mem c hds)
          · simpa [scanSubs, hts, hdur, if_neg hq] using ih seen

/-! ### One-event characterisation of `procEvent` -/

theorem procEvent_X (cats : List (String × String)) (st : ThreadState)
    (e : Event) (ets edur : Int) (nm c : String)
    (hph : e.ph = some "X") (hts : e.ts = some ets) (hdur : e.dur = some edur)
    (hnm : e.name = some nm) (hcat : e.cat = some c) :
    procEvent cats st e = .ok (aset cats nm c,
      { totalTime := st.totalTime + eventSelfTime st ets edur
        allEvents := st.allEvents ++ [e]
        eventTimes := addTime st.eventTimes nm (eventSelfTime st ets edur)
        seen := (eventSubs st e).reverse ++ st.seen }) := by
  unfold procEvent eventSelfTime eventSubs
  rw [hph, hts, hdur, hnm, hcat]
  by_cases hgt : st.totalTime > 0
  · simp [hgt, scanLoop_eq]
  · simp [hgt]

theorem procEvent_skip (cats : List (String × String)) (st : ThreadState)
    (e : Event) (p : String) (hph : e.ph = some p) (hne : p ≠ "X") :
    procEvent cats st e = .ok (cats, st) := by
  simp [procEvent, hph, hne]

theorem eventSubs_skip (st : ThreadState) (e : Event) (p : String)
    (hph : e.ph = some p) (hne : p ≠ "X") : eventSubs st e = [] := by
  unfold eventSubs
  rw [hph]
  rcases e.ts with _ | ets <;> rcases e.dur with _ | edur <;>
    rcases e.name with _ | nm <;> rcases e.cat with _ | c <;>
    simp [hne]

/-- Inversion: a successful `procEvent` step is either a skip of a
non-Complete event or the full Complete-event update. -/
theorem procEvent_ok_inv {cats : List (String × String)} {st : ThreadState}
    {e : Event} {cats1 : List (String × String)} {st1 : ThreadState}
    (h : procEvent cats st e = .ok (cats1, st1)) :
    (∃ p, e.ph = some p ∧ p ≠ "X" ∧ cats1 = cats ∧ st1 = st) ∨
    (∃ ets edur nm c, e.ph = some "X" ∧ e.ts = some ets ∧
      e.dur = some edur ∧ e.name = some nm ∧ e.cat = some c ∧
      cats1 = aset cats nm c ∧
      st1 = { totalTime := st.totalTime + eventSelfTime st ets edur
              allEvents := st.allEvents ++ [e]
              eventTimes := addTime st.eventTimes nm
                (eventSelfTime st ets edur)
              seen := (eventSubs st e).reverse ++ st.seen }) := by
  rcases hph : e.ph with _ | p
  · simp [procEvent, hph] at h
  · by_cases hx : p = "X"
    · subst hx
      rcases hts : e.ts with _ | ets
      · simp [procEvent, hph, hts] at h
      · rcases hdur : e.dur with _ | edur
        · simp [procEvent, hph, hts, hdur] at h
        · rcases hnm : e.name with _ | nm
          · simp [procEvent, hph, hts, hdur, hnm] at h
          · rcases hcat : e.cat with _ | c
            · simp [procEvent, hph, hts, hdur, hnm, hcat] at h
            · rw [procEvent_X cats st e ets edur nm c hph hts hdur hnm hcat]
                at h
              right
              refine ⟨ets, edur, nm, c, rfl, rfl, rfl, rfl, rfl, ?_, ?_⟩
              · exact (congrArg Prod.fst (Except.ok.inj h)).symm
              · exact (congrArg Prod.snd (Except.ok.inj h)).symm
    · left
      rw [procEvent_skip cats st e p hph hx] at h
      refine ⟨p, rfl, hx, ?_, ?_⟩
      · exact (congrArg Prod.fst (Except.ok.inj h)).symm
      · exact (congrArg Prod.snd (Except.ok.inj h)).symm

/-! ### Thread-level lemmas -/

theorem procThread_append (l1 l2 : List Event) :
    ∀ (cats cats1 : List (String × String)) (st st1 : ThreadState),
      procThread cats st l1 = .ok (cats1, st1) →
      procThread cats st (l1 ++ l2) = procThread cats1 st1 l2 := by
  induction l1 with
  | nil =>
      intro cats cats1 st st1 h
      simp only [procThread] at h
      obtain ⟨h1, h2⟩ := Prod.mk.injEq .. ▸ Except.ok.inj h
      subst h1; subst h2
      simp
  | cons e rest ih =>
      intro cats cats1 st st1 h
      rcases hpe : procEvent cats st e with err | p
      · simp [procThread, hpe] at h
      · obtain ⟨c2, s2⟩ := p
        simp only [procThread, List.cons_append, hpe] at h ⊢
        exact ih c2 cats1 s2 st1 h

theorem procThread_skip_all (l : List Event) :
    ∀ (cats : List (String × String)) (st : ThreadState),
      (∀ x ∈ l, ∃ p, x.ph = some p ∧ p ≠ "X") →
      procThread cats st l = .ok (cats, st) := by
  induction l with
  | nil => intro cats st _; rfl
  | cons e rest ih =>
      intro cats st h
      obtain ⟨p, hph, hne⟩ := h e (List.mem_cons_self e rest)
      simp only [procThread, procEvent_skip cats st e p hph hne]
      exact ih cats st fun x hx => h x (List.mem_cons_of_mem e hx)

theorem eventSubs_nodup_disjoint (st : ThreadState) (e : Event) :
    (eventSubs st e).Nodup ∧ ∀ c ∈ eventSubs st e, c ∉ st.seen := by
  unfold eventSubs
  rcases e.ph with _ | p <;> rcases e.ts with _ | ets <;>
    rcases e.dur with _ | edur <;> rcases e.name with _ | nm <;>
    rcases e.cat with _ | c
  all_goals dsimp only
  all_goals try exact ⟨List.nodup_nil, by simp⟩
  by_cases hq : p = "X" ∧ st.totalTime > 0
  · rw [if_pos hq]
    exact scanSubs_nodup_disjoint ets (ets + edur) edur
      st.allEvents.reverse st.seen
  · rw [if_neg hq]
    exact ⟨List.nodup_nil, by simp⟩

theorem procEvent_seen {cats : List (String × String)} {st : ThreadState}
    {e : Event} {cats1 : List (String × String)} {st1 : ThreadState}
    (h : procEvent cats st e = .ok (cats1, st1)) :
    st1.seen = (eventSubs st e).reverse ++ st.seen := by
  rcases procEvent_ok_inv h with ⟨p, hph, hne, _, hst⟩ |
    ⟨ets, edur, nm, c, _, _, _, _, _, _, hst⟩
  · rw [hst, eventSubs_skip st e p hph hne]
    simp
  · rw [hst]

theorem threadSubs_nodup_disjoint (evs : List Event) :
    ∀ (cats : List (String × String)) (st : ThreadState),
      (threadSubs cats st evs).Nodup ∧
        ∀ c ∈ threadSubs cats st evs, c ∉ st.seen := by
  induction evs with
  | nil => intro cats st; simp [threadSubs]
  | cons e rest ih =>
      intro cats st
      rcases hpe : procEvent cats st e with err | p
      · simp [threadSubs, hpe]
      · obtain ⟨cats1, st1⟩ := p
        simp only [threadSubs, hpe]
        obtain ⟨end1, edis⟩ := eventSubs_nodup_disjoint st e
        obtain ⟨rnd, rdis⟩ := ih cats1 st1
        have hseen := procEvent_seen hpe
        have hrest1 : ∀ c ∈ threadSubs cats1 st1 rest, c ∉ eventSubs st e := by
          intro c hc hce
          exact rdis c hc (hseen ▸ List.mem_append_left st.seen
            (List.mem_reverse.mpr hce))
        have hrest2 : ∀ c ∈ threadSubs cats1 st1 rest, c ∉ st.seen := by
          intro c hc hcs
          exact rdis c hc (hseen ▸ List.mem_append_right _ hcs)
        refine ⟨List.Nodup.append end1 rnd ?_, ?_⟩
        · intro a ha hb
          exact hrest1 a hb ha
        · intro c hc
          rcases List.mem_append.mp hc with h1 | h1
          · exact edis c h1
          · exact hrest2 c h1

theorem procThread_seen (evs : List Event) :
    ∀ {cats cats1 : List (String × String)} {st st1 : ThreadState},
      procThread cats st evs = .ok (cats1, st1) →
      st1.seen = (threadSubs cats st evs).reverse ++ st.seen := by
  induction evs with
  | nil =>
      intro cats cats1 st st1 h
      simp only [procThread] at h
      obtain ⟨h1, h2⟩ := Prod.mk.injEq .. ▸ Except.ok.inj h
      subst h2
      simp [threadSubs]
  | cons e rest ih =>
      intro cats cats1 st st1 h
      rcases hpe : procEvent cats st e with err | p
      · simp [procThread, hpe] at h
      · obtain ⟨c2, s2⟩ := p
        simp only [procThread, hpe] at h
        simp only [threadSubs, hpe, List.reverse_append, List.append_assoc]
        rw [ih h, procEvent_seen hpe]

/-! ### The category table built by `get_times` -/

theorem optOr_none {α : Type} (a : Option α) : optOr a none = a := by
  cases a <;> rfl

theorem optOr_assoc {α : Type} (a b c : Option α) :
    optOr (optOr a b) c = optOr a (optOr b c) := by
  cases a <;> cases b <;> rfl

theorem lastXCat_cons (n : String) (e : Event) (rest : List Event) :
    lastXCat n (e :: rest) =
      optOr (lastXCat n rest)
        (if e.ph = some "X" ∧ e.name = some n then e.cat else none) := by
  rw [lastXCat]
  rcases h : lastXCat n rest with _ | c <;> rfl

theorem lastXCat_append (n : String) (l1 l2 : List Event) :
    lastXCat n (l1 ++ l2) = optOr (lastXCat n l2) (lastXCat n l1) := by
  induction l1 with
  | nil => simp [lastXCat, optOr_none]
  | cons e rest ih =>
      rw [List.cons_append, lastXCat_cons, ih, lastXCat_cons, optOr_assoc]

theorem procEvent_cats {cats : List (String × String)} {st : ThreadState}
    {e : Event} {cats1 : List (String × String)} {st1 : ThreadState}
    (h : procEvent cats st e = .ok (cats1, st1)) (n : String) :
    alookup cats1 n =
      optOr (if e.ph = some "X" ∧ e.name = some n then e.cat else none)
        (alookup cats n) := by
  rcases procEvent_ok_inv h with ⟨p, hph, hne, hc, _⟩ |
    ⟨ets, edur, nm, c, hph, hts, hdur, hnm, hcat, hc, _⟩
  · have : ¬(e.ph = some "X" ∧ e.name = some n) := by
      rintro ⟨h1, -⟩
      rw [hph] at h1
      exact hne (Option.some.inj h1)
    rw [hc, if_neg this]
    rfl
  · by_cases hn : n = nm
    · subst hn
      rw [hc, if_pos ⟨hph, hnm⟩, hcat, alookup_aset_self]
      rfl
    · have : ¬(e.ph = some "X" ∧ e.name = some n) := by
        rintro ⟨-, h2⟩
        rw [hnm] at h2
        exact hn (Option.some.inj h2).symm
      rw [hc, if_neg this, alookup_aset_ne cats nm n c hn]
      rfl

theorem procThread_cats (evs : List Event) :
    ∀ {cats cats1 : List (String × String)} {st st1 : ThreadState},
      procThread cats st evs = .ok (cats1, st1) → ∀ n,
      alookup cats1 n = optOr (lastXCat n evs) (alookup cats n) := by
  induction evs with
  | nil =>
      intro cats cats1 st st1 h n
      simp only [procThread] at h
      obtain ⟨h1, _⟩ := Prod.mk.injEq .. ▸ Except.ok.inj h
      subst h1
      simp [lastXCat, optOr]
  | cons e rest ih =>
      intro cats cats1 st st1 h n
      rcases hpe : procEvent cats st e with err | p
      · simp [procThread, hpe] at h
      · obtain ⟨c2, s2⟩ := p
        simp only [procThread, hpe] at h
        rw [ih h n, procEvent_cats hpe n, lastXCat_cons, optOr_assoc]

theorem get_times_loop_cats (threads : List (String × List Event)) :
    ∀ {cats cats1 : List (String × String)}
      {tbl tbl1 : List (String × List (String × Int))},
      get_times_loop cats tbl threads = .ok (tbl1, cats1) → ∀ n,
      alookup cats1 n = optOr (lastXCat n (joinEvents threads))
        (alookup cats n) := by
  induction threads with
  | nil =>
      intro cats cats1 tbl tbl1 h n
      simp only [get_times_loop] at h
      obtain ⟨_, h2⟩ := Prod.mk.injEq .. ▸ Except.ok.inj h
      subst h2
      simp [joinEvents, lastXCat, optOr]
  | cons p rest ih =>
      intro cats cats1 tbl tbl1 h n
      obtain ⟨tid, evs⟩ := p
      rcases hpt : procThread cats initThreadState evs with err | q
      · simp [get_times_loop, hpt] at h
      · obtain ⟨c2, s2⟩ := q
        simp only [get_times_loop, hpt] at h
        have : joinEvents ((tid, evs) :: rest) = evs ++ joinEvents rest := rfl
        rw [ih h n, procThread_cats evs hpt n, this, lastXCat_append,
          optOr_assoc]

/-! ### Every accumulated name has a category entry -/

theorem procEvent_cats_isSome {cats : List (String × String)}
    {st : ThreadState} {e : Event} {cats1 : List (String × String)}
    {st1 : ThreadState} (h : procEvent cats st e = .ok (cats1, st1))
    (n : String) (hn : (alookup cats n).isSome) :
    (alookup cats1 n).isSome := by
  rcases procEvent_ok_inv h with ⟨p, _, _, hc, _⟩ |
    ⟨ets, edur, nm, c, _, _, _, _, _, hc, _⟩
  · rw [hc]; exact hn
  · rw [hc]; exact alookup_aset_isSome cats nm n c hn

theorem procEvent_inv {cats : List (String × String)} {st : ThreadState}
    {e : Event} {cats1 : List (String × String)} {st1 : ThreadState}
    (h : procEvent cats st e = .ok (cats1, st1))
    (hInv : ∀ n ∈ st.eventTimes.map Prod.fst, (alookup cats n).isSome) :
    ∀ n ∈ st1.eventTimes.map Prod.fst, (alookup cats1 n).isSome := by
  rcases procEvent_ok_inv h with ⟨p, _, _, hc, hst⟩ |
    ⟨ets, edur, nm, c, _, _, _, _, _, hc, hst⟩
  · subst hc; subst hst; exact hInv
  · subst hc; subst hst
    intro n hn
    simp only at hn
    rcases mem_keys_addTime hn with h1 | h1
    · subst h1
      rw [alookup_aset_self]
      rfl
    · exact alookup_aset_isSome cats nm n c (hInv n h1)

theorem procThread_cats_isSome (evs : List Event) :
    ∀ {cats cats1 : List (String × String)} {st st1 : ThreadState},
      procThread cats st evs = .ok (cats1, st1) → ∀ n,
      (alookup cats n).isSome → (alookup cats1 n).isSome := by
  induction evs with
  | nil =>
      intro cats cats1 st st1 h n hn
      simp only [procThread] at h
      obtain ⟨h1, _⟩ := Prod.mk.injEq .. ▸ Except.ok.inj h
      subst h1
      exact hn
  | cons e rest ih =>
      intro cats cats1 st st1 h n hn
      rcases hpe : procEvent cats st e with err | p
      · simp [procThread, hpe] at h
      · obtain ⟨c2, s2⟩ := p
        simp only [procThread, hpe] at h
        exact ih h n (procEvent_cats_isSome hpe n hn)

theorem procThread_inv (evs : List Event) :
    ∀ {cats cats1 : List (String × String)} {st st1 : ThreadState},
      procThread cats st evs = .ok (cats1, st1) →
      (∀ n ∈ st.eventTimes.map Prod.fst, (alookup cats n).isSome) →
      ∀ n ∈ st1.eventTimes.map Prod.fst, (alookup cats1 n).isSome := by
  induction evs with
  | nil =>
      intro cats cats1 st st1 h hInv
      simp only [procThread] at h
      obtain ⟨h1, h2⟩ := Prod.mk.injEq .. ▸ Except.ok.inj h
      subst h1; subst h2
      exact hInv
  | cons e rest ih =>
      intro cats cats1 st st1 h hInv
      rcases hpe : procEvent cats st e with err | p
      · simp [procThread, hpe] at h
      · obtain ⟨c2, s2⟩ := p
        simp only [procThread, hpe] at h
        exact ih h (procEvent_inv hpe hInv)

theorem get_times_loop_tbl (threads : List (String × List Event)) :
    ∀ {cats cats1 : List (String × String)}
      {tbl tbl1 : List (String × List (String × Int))},
      get_times_loop cats tbl threads = .ok (tbl1, cats1) →
      (∀ p ∈ tbl, ∀ n ∈ (p.2 : List (String × Int)).map Prod.fst,
        (alookup cats n).isSome) →
      ∀ p ∈ tbl1, ∀ n ∈ (p.2 : List (String × Int)).map Prod.fst,
        (alookup cats1 n).isSome := by
  induction threads with
  | nil =>
      intro cats cats1 tbl tbl1 h hInv
      simp only [get_times_loop] at h
      obtain ⟨h1, h2⟩ := Prod.mk.injEq .. ▸ Except.ok.inj h
      subst h1; subst h2
      exact hInv
  | cons q rest ih =>
      intro cats cats1 tbl tbl1 h hInv
      obtain ⟨tid, evs⟩ := q
      rcases hpt : procThread cats initThreadState evs with err | p
      · simp [get_times_loop, hpt] at h
      · obtain ⟨c2, s2⟩ := p
        simp only [get_times_loop, hpt] at h
        refine ih h ?_
        intro p hp n hn
        rcases mem_aset hp with h1 | h1
        · exact procThread_cats_isSome evs hpt n (hInv p h1 n hn)
        · subst h1
          refine procThread_inv evs hpt ?_ n hn
          intro m hm
          simp [initThreadState] at hm

theorem threadObjects_isOk (cats : List (String × String)) (tid : String) :
    ∀ times : List (String × Int),
      (∀ n ∈ times.map Prod.fst, (alookup cats n).isSome) →
      ∃ objs, threadObjects cats tid times = .ok objs := by
  intro times
  induction times with
  | nil => intro _; exact ⟨[], rfl⟩
  | cons q rest ih =>
      intro h
      obtain ⟨n, t⟩ := q
      have hn : (alookup cats n).isSome := h n (by simp)
      rcases hl : alookup cats n with _ | c
      · rw [hl] at hn; simp at hn
      · obtain ⟨objs, hobjs⟩ := ih fun m hm => h m (by simp [hm])
        exact ⟨{ EVENT_NAME := n, CATEGORY := c, THREAD := tid
                 TIME_TAKEN := (t : ℚ) / 1000000 } :: objs,
          by simp only [threadObjects, hl, hobjs]⟩

theorem allThreadObjects_isOk (cats : List (String × String)) :
    ∀ tbl : List (String × List (String × Int)),
      (∀ p ∈ tbl, ∀ n ∈ (p.2 : List (String × Int)).map Prod.fst,
        (alookup cats n).isSome) →
      ∃ objs, allThreadObjects cats tbl = .ok objs := by
  intro tbl
  induction tbl with
  | nil => intro _; exact ⟨[], rfl⟩
  | cons q rest ih =>
      intro h
      obtain ⟨tid, times⟩ := q
      obtain ⟨objs1, h1⟩ := threadObjects_isOk cats tid times
        (h (tid, times) (by simp))
      obtain ⟨objs2, h2⟩ := ih fun p hp => h p (by simp [hp])
      exact ⟨objs1 ++ objs2, by simp only [allThreadObjects, h1, h2]⟩

/-! ### Shape of the aggregator's output -/

theorem filter_nil_of_false {α : Type} (p : α → Bool) :
    ∀ l : List α, (∀ a ∈ l, p a = false) → l.filter p = [] := by
  intro l
  induction l with
  | nil => intro _; rfl
  | cons a rest ih =>
      intro h
      rw [List.filter_cons, h a (by simp)]
      exact ih fun b hb => h b (by simp [hb])

theorem threadObjects_thread (cats : List (String × String)) (tid : String) :
    ∀ (times : List (String × Int)) (objs : List OutputRecord),
      threadObjects cats tid times = .ok objs →
      ∀ r ∈ objs, r.THREAD = tid := by
  intro times
  induction times with
  | nil =>
      intro objs h r hr
      simp only [threadObjects] at h
      obtain rfl := Except.ok.inj h
      simp at hr
  | cons q rest ih =>
      intro objs h r hr
      obtain ⟨n, t⟩ := q
      simp only [threadObjects] at h
      rcases hl : alookup cats n with _ | c
      · rw [hl] at h; exact absurd h (by simp)
      · rw [hl] at h
        rcases ho : threadObjects cats tid rest with err | objs2
        · rw [ho] at h; exact absurd h (by simp)
        · rw [ho] at h
          obtain rfl := Except.ok.inj h
          rcases List.mem_cons.mp hr with h1 | h1
          · rw [h1]
          · exact ih objs2 ho r h1

theorem threadObjects_names (cats : List (String × String)) (tid : String) :
    ∀ (times : List (String × Int)) (objs : List OutputRecord),
      threadObjects cats tid times = .ok objs →
      ∀ r ∈ objs, r.EVENT_NAME ∈ times.map Prod.fst := by
  intro times
  induction times with
  | nil =>
      intro objs h r hr
      simp only [threadObjects] at h
      obtain rfl := Except.ok.inj h
      simp at hr
  | cons q rest ih =>
      intro objs h r hr
      obtain ⟨n, t⟩ := q
      simp only [threadObjects] at h
      rcases hl : alookup cats n with _ | c
      · rw [hl] at h; exact absurd h (by simp)
      · rw [hl] at h
        rcases ho : threadObjects cats tid rest with err | objs2
        · rw [ho] at h; exact absurd h (by simp)
        · rw [ho] at h
          obtain rfl := Except.ok.inj h
          rcases List.mem_cons.mp hr with h1 | h1
          · rw [h1]; simp
          · simp only [List.map_cons, List.mem_cons]
            exact Or.inr (ih objs2 ho r h1)

theorem threadObjects_filter (cats : List (String × String)) (tid : String) :
    ∀ (times : List (String × Int)) (objs : List OutputRecord),
      threadObjects cats tid times = .ok objs →
      (times.map Prod.fst).Nodup →
      ∀ (n : String) (t : Int), (n, t) ∈ times →
      ∃ c, alookup cats n = some c ∧
        objs.filter (fun r => r.EVENT_NAME = n) =
          [{ EVENT_NAME := n, CATEGORY := c, THREAD := tid
             TIME_TAKEN := (t : ℚ) / 1000000 }] := by
  intro times
  induction times with
  | nil => intro objs _ _ n t hmem; simp at hmem
  | cons q rest ih =>
      intro objs h hnd n t hmem
      obtain ⟨m, s⟩ := q
      simp only [threadObjects] at h
      rcases hl : alookup cats m with _ | cm
      · rw [hl] at h; exact absurd h (by simp)
      · rw [hl] at h
        rcases ho : threadObjects cats tid rest with err | objs2
        · rw [ho] at h; exact absurd h (by simp)
        · rw [ho] at h
          obtain rfl := Except.ok.inj h
          simp only [List.map_cons, List.nodup_cons] at hnd
          rcases List.mem_cons.mp hmem with h1 | h1
          · obtain ⟨rfl, rfl⟩ := Prod.mk.injEq .. ▸ h1
            refine ⟨cm, hl, ?_⟩
            rw [List.filter_cons]
            simp only [decide_eq_true_eq, if_true]
            have : objs2.filter (fun r => r.EVENT_NAME = n) = [] := by
              refine filter_nil_of_false _ objs2 fun r hr => ?_
              have := threadObjects_names cats tid rest objs2 ho r hr
              simp only [decide_eq_false_iff_not]
              intro heq
              exact hnd.1 (heq ▸ this)
            rw [this]
          · have hne : m ≠ n := by
              intro hmn
              exact hnd.1 (hmn ▸ List.mem_map.mpr ⟨(n, t), h1, rfl⟩)
            obtain ⟨c, hc, hf⟩ := ih objs2 ho hnd.2 n t h1
            refine ⟨c, hc, ?_⟩
            rw [List.filter_cons]
            simp only [decide_eq_true_eq]
            rw [if_neg hne, hf]

theorem allThreadObjects_threads (cats : List (String × String)) :
    ∀ (tbl : List (String × List (String × Int))) (objs : List OutputRecord),
      allThreadObjects cats tbl = .ok objs →
      ∀ r ∈ objs, r.THREAD ∈ tbl.map Prod.fst := by
  intro tbl
  induction tbl with
  | nil =>
      intro objs h r hr
      simp only [allThreadObjects] at h
      obtain rfl := Except.ok.inj h
      simp at hr
  | cons q rest ih =>
      intro objs h r hr
      obtain ⟨tid, times⟩ := q
      simp only [allThreadObjects] at h
      rcases h1 : threadObjects cats tid times with err | objs1
      · rw [h1] at h; exact absurd h (by simp)
      · rw [h1] at h
        rcases h2 : allThreadObjects cats rest with err | objs2
        · rw [h2] at h; exact absurd h (by simp)
        · rw [h2] at h
          obtain rfl := Except.ok.inj h
          rcases List.mem_append.mp hr with hr1 | hr1
          · simp only [List.map_cons, List.mem_cons]
            exact Or.inl (threadObjects_thread cats tid times objs1 h1 r hr1)
          · simp only [List.map_cons, List.mem_cons]
            exact Or.inr (ih objs2 h2 r hr1)

theorem filter_congr_mem {α : Type} (p q : α → Bool) :
    ∀ l : List α, (∀ a ∈ l, p a = q a) → l.filter p = l.filter q := by
  intro l
  induction l with
  | nil => intro _; rfl
  | cons a rest ih =>
      intro h
      rw [List.filter_cons, List.filter_cons, h a (by simp),
        ih fun b hb => h b (by simp [hb])]

theorem allThreadObjects_filter (cats : List (String × String)) :
    ∀ (tbl : List (String × List (String × Int))) (objs : List OutputRecord),
      allThreadObjects cats tbl = .ok objs →
      (tbl.map Prod.fst).Nodup →
      (∀ p ∈ tbl, ((p.2 : List (String × Int)).map Prod.fst).Nodup) →
      ∀ (tid : String) (times : List (String × Int)), (tid, times) ∈ tbl →
      ∀ (n : String) (t : Int), (n, t) ∈ times →
      ∃ c, alookup cats n = some c ∧
        objs.filter (fun r => r.THREAD = tid ∧ r.EVENT_NAME = n) =
          [{ EVENT_NAME := n, CATEGORY := c, THREAD := tid
             TIME_TAKEN := (t : ℚ) / 1000000 }] := by
  intro tbl
  induction tbl with
  | nil => intro objs _ _ _ tid times hmem; simp at hmem
  | cons q rest ih =>
      intro objs h hth hnm tid times hmem n t hnt
      obtain ⟨tid2, times2⟩ := q
      simp only [allThreadObjects] at h
      rcases h1 : threadObjects cats tid2 times2 with err | objs1
      · rw [h1] at h; exact absurd h (by simp)
      · rw [h1] at h
        rcases h2 : allThreadObjects cats rest with err | objs2
        · rw [h2] at h; exact absurd h (by simp)
        · rw [h2] at h
          obtain rfl := Except.ok.inj h
          simp only [List.map_cons, List.nodup_cons] at hth
          rw [List.filter_append]
          rcases List.mem_cons.mp hmem with hh | hh
          · obtain ⟨h3, h4⟩ := Prod.mk.injEq .. ▸ hh
            subst h3; subst h4
            have hB : objs2.filter
                (fun r => decide (r.THREAD = tid ∧ r.EVENT_NAME = n)) = [] := by
              refine filter_nil_of_false _ objs2 fun r hr => ?_
              have hmemr := allThreadObjects_threads cats rest objs2 h2 r hr
              simp only [decide_eq_false_iff_not, not_and]
              intro heq
              exact absurd (heq ▸ hmemr) hth.1
            have hA : objs1.filter
                  (fun r => decide (r.THREAD = tid ∧ r.EVENT_NAME = n)) =
                objs1.filter (fun r => decide (r.EVENT_NAME = n)) := by
              refine filter_congr_mem _ _ objs1 fun r hr => ?_
              have := threadObjects_thread cats tid times objs1 h1 r hr
              simp [this]
            obtain ⟨c, hc, hf⟩ := threadObjects_filter cats tid times objs1 h1
              (hnm (tid, times) (by simp)) n t hnt
            exact ⟨c, hc, by rw [hA, hB, hf, List.append_nil]⟩
          · have htid : tid ∈ rest.map Prod.fst :=
              List.mem_map.mpr ⟨(tid, times), hh, rfl⟩
            have hne : tid ≠ tid2 := by
              intro hq
              exact absurd (hq ▸ htid) hth.1
            have hA : objs1.filter
                (fun r => decide (r.THREAD = tid ∧ r.EVENT_NAME = n)) = [] := by
              refine filter_nil_of_false _ objs1 fun r hr => ?_
              have := threadObjects_thread cats tid2 times2 objs1 h1 r hr
              simp only [decide_eq_false_iff_not, not_and]
              intro heq
              exact absurd (heq ▸ this) hne
            obtain ⟨c, hc, hf⟩ := ih objs2 h2 hth.2
              (fun p hp => hnm p (by simp [hp])) tid times hh n t hnt
            exact ⟨c, hc, by rw [hA, hf, List.nil_append]⟩

/-! ### Claim theorems -/

/-- C1: for a single thread holding exactly `child(ts=10, dur=20, name="C")`
followed by `parent(ts=0, dur=100, name="P")` in that arrival order,
`get_times` computes self-time 20 for `"C"` and 80 for `"P"`: the parent's
duration 100 is reduced by the contained, shorter, earlier-processed child's
duration 20. -/
theorem containment_subtraction_example :
    get_times [("t", [evC, evP])] =
      .ok ([("t", [("C", 20), ("P", 80)])], [("C", "catC"), ("P", "catP")]) :=
  rfl

/-- C2: over a whole thread timeline, each event key is used as a
subtraction source at most once (`threadSubs`, the list of all subtraction
sources in order, has no duplicates), and the final `seen` set is exactly
the set of keys that were used — the set is consulted before each
subtraction and the used key is added to it. -/
theorem subtraction_single_use (tl : List Event)
    (cats cats1 : List (String × String)) (st1 : ThreadState)
    (h : procThread cats initThreadState tl = .ok (cats1, st1)) :
    (threadSubs cats initThreadState tl).Nodup ∧
      st1.seen = (threadSubs cats initThreadState tl).reverse := by
  refine ⟨(threadSubs_nodup_disjoint tl cats initThreadState).1, ?_⟩
  simpa [initThreadState] using procThread_seen tl h

/-- Witness for C2 at the concrete child/parent timeline. -/
theorem subtraction_single_use_witness :
    (threadSubs [] initThreadState [evC, evP]).Nodup ∧
      stCP.seen = (threadSubs [] initThreadState [evC, evP]).reverse :=
  subtraction_single_use [evC, evP] [] [("C", "catC"), ("P", "catP")] stCP rfl

/-- C4 counterexample: a non-Complete record (`ph="M"`) carrying
`cat="A"` and `name="N"` passes through `get_data`, yet the name-to-category
mapping that the aggregator reads — the `categories` component returned by
`get_times` — is empty: it holds no entry for `"N"`, contradicting the
claim that `get_data` records `CategoryIndex["N"] = "A"` into the index the
aggregator later reads. -/
theorem category_index_counterexample :
    get_data [evOther] = .ok [("T", [evOther])] ∧
      get_times [("T", [evOther])] = .ok ([("T", [])], []) ∧
      alookup ([] : List (String × String)) "N" = none :=
  ⟨rfl, rfl, rfl⟩

/-- C4 amended: the name-to-category index the aggregator reads is built by
`get_times`, not by `get_data` (whose category-to-names table is discarded):
for every name, the returned index holds exactly the `cat` of the last
Complete-phase event bearing that name across all threads in processing
order — last write wins, and records of other phases contribute nothing. -/
theorem categories_built_from_complete_events
    (threads : List (String × List Event))
    (tbl : List (String × List (String × Int)))
    (cats : List (String × String)) (n : String)
    (h : get_times threads = .ok (tbl, cats)) :
    alookup cats n = lastXCat n (joinEvents threads) := by
  rw [get_times] at h
  rw [get_times_loop_cats threads h n]
  exact optOr_none _

/-- Witness for C4's amended theorem: on the child/parent thread the
returned index maps `"C"` to the last (only) Complete event named `"C"`. -/
theorem categories_built_from_complete_events_witness :
    alookup [("C", "catC"), ("P", "catP")] "C" =
      lastXCat "C" (joinEvents [("t", [evC, evP])]) :=
  categories_built_from_complete_events [("t", [evC, evP])]
    [("t", [("C", 20), ("P", 80)])] [("C", "catC"), ("P", "catP")] "C" rfl

/-- C5 counterexample: with two overlapping 60µs events followed by a 100µs
event containing both start times, both children are subtracted from the
parent, whose accumulated self-time entry is created at `-20 < 0`; the
accumulated entry is therefore not monotonically increasing and an event's
self-time contribution can be negative. -/
theorem selftime_negative_counterexample :
    get_times [("t", [evA60, evB60, evP100])] =
      .ok ([("t", [("A", 60), ("B", 60), ("P", -20)])],
        [("A", "ca"), ("B", "cb"), ("P", "cp")]) ∧ (-20 : Int) < 0 :=
  ⟨rfl, by decide⟩

/-- C5 amended: folding one Complete event changes only the entry of its
own name, adding exactly the computed self-time `eventSelfTime` (which the
counterexample shows can be negative). -/
theorem selftime_fold_additive
    (cats : List (String × String)) (st : ThreadState) (e : Event)
    (ets edur : Int) (nm c : String)
    (cats1 : List (String × String)) (st1 : ThreadState)
    (hph : e.ph = some "X") (hts : e.ts = some ets) (hdur : e.dur = some edur)
    (hnm : e.name = some nm) (hcat : e.cat = some c)
    (h : procEvent cats st e = .ok (cats1, st1)) :
    alookup st1.eventTimes nm =
      some ((alookup st.eventTimes nm).getD 0 + eventSelfTime st ets edur) ∧
    ∀ m, m ≠ nm → alookup st1.eventTimes m = alookup st.eventTimes m := by
  rw [procEvent_X cats st e ets edur nm c hph hts hdur hnm hcat] at h
  have hst : st1 = { totalTime := st.totalTime + eventSelfTime st ets edur
                     allEvents := st.allEvents ++ [e]
                     eventTimes := addTime st.eventTimes nm
                       (eventSelfTime st ets edur)
                     seen := (eventSubs st e).reverse ++ st.seen } :=
    (congrArg Prod.snd (Except.ok.inj h)).symm
  rw [hst]
  exact ⟨alookup_addTime_self st.eventTimes nm _,
    fun m hm => alookup_addTime_ne st.eventTimes nm m _ hm⟩

/-- Witness for C5's amended theorem: processing `evP` from the state left
by `evC` adds exactly `eventSelfTime stC 0 100` (= 80) under `"P"` and
leaves the `"C"` entry unchanged. -/
theorem selftime_fold_additive_witness :
    alookup stCP.eventTimes "P" =
      some ((alookup stC.eventTimes "P").getD 0 + eventSelfTime stC 0 100) ∧
    alookup stCP.eventTimes "C" = alookup stC.eventTimes "C" :=
  ⟨(selftime_fold_additive [] stC evP 0 100 "P" "catP" [("P", "catP")] stCP
      rfl rfl rfl rfl rfl rfl).1,
   (selftime_fold_additive [] stC evP 0 100 "P" "catP" [("P", "catP")] stCP
      rfl rfl rfl rfl rfl rfl).2 "C" (by decide)⟩

/-- C6: a Complete event lacking `ts` or `dur` does raise the format error,
but a Complete event lacking `name` raises a raw `KeyError` instead — the
unguarded `categories[event["name"]]` access runs before the explicit
missing-`name` check, which is unreachable. -/
theorem missing_name_is_keyerror :
    get_times [("t", [evNoName])] = .error .keyError ∧
      get_times [("t", [evNoDur])] = .error .incorrectProfileFormat ∧
      PyError.keyError ≠ PyError.incorrectProfileFormat :=
  ⟨rfl, rfl, by decide⟩

/-- C7: a record lacking `tid` makes the grouping loop raise the format
error, but the enclosing `except Exception` of `get_data` re-raises it as
`UnableToUnzipFileError`, so that is what propagates to the caller. -/
theorem missing_tid_error_is_wrapped :
    get_data_loop [] [] [evNoTid] = .error .incorrectProfileFormat ∧
      get_data [evNoTid] = .error .unableToUnzipFile ∧
      PyError.unableToUnzipFile ≠ PyError.incorrectProfileFormat :=
  ⟨rfl, rfl, by decide⟩

/-- C8 counterexample: an event lacking the `ph` field altogether is not
skipped — `get_times` fails with the format error on it. -/
theorem missing_ph_raises :
    get_times [("t", [evNoPh])] = .error .incorrectProfileFormat := rfl

/-- C8 amended: an event whose `ph` field is present with a value other
than `"X"` is skipped without error and contributes nothing — a thread of
such events yields an empty self-time table and no category entries. -/
theorem non_complete_events_skipped (tid : String) (evs : List Event)
    (h : ∀ e ∈ evs, ∃ p, e.ph = some p ∧ p ≠ "X") :
    get_times [(tid, evs)] = .ok ([(tid, [])], []) := by
  have hs := procThread_skip_all evs [] initThreadState h
  simp only [get_times, get_times_loop, hs]
  rfl

/-- C3: the first Complete event `e` processed in a thread (only
non-Complete events precede it) keeps its raw duration as self-time: after
`e` the thread state records exactly `duration` for `e.name`, the running
total equals `duration`, and later events are processed from that state, so
they cannot reduce what was recorded for `e` — the subtraction scan runs
only under `total_time > 0`, which fails at the first Complete event. -/
theorem first_complete_event_full_duration
    (cats0 : List (String × String)) (l1 l2 : List Event) (e : Event)
    (ets edur : Int) (nm c : String)
    (hskip : ∀ x ∈ l1, ∃ p, x.ph = some p ∧ p ≠ "X")
    (hph : e.ph = some "X") (hts : e.ts = some ets) (hdur : e.dur = some edur)
    (hnm : e.name = some nm) (hcat : e.cat = some c) :
    procThread cats0 initThreadState (l1 ++ e :: l2) =
      procThread (aset cats0 nm c) ⟨edur, [e], [(nm, edur)], []⟩ l2 := by
  rw [procThread_append l1 (e :: l2) cats0 cats0 initThreadState
    initThreadState (procThread_skip_all l1 cats0 initThreadState hskip)]
  have hpe := procEvent_X cats0 initThreadState e ets edur nm c
    hph hts hdur hnm hcat
  simp only [procThread, hpe]
  have hself : eventSelfTime ⟨0, [], [], []⟩ ets edur = edur := by
    simp [eventSelfTime]
  have hsubs : eventSubs ⟨0, [], [], []⟩ e = [] := by
    unfold eventSubs
    rw [hph, hts, hdur, hnm, hcat]
    simp
  simp [hself, hsubs, initThreadState, addTime, alookup, aset]

/-- Witness for C3: after a metadata event and the first Complete event
`evC`, the state records self-time 20 (= `evC`'s raw duration) for `"C"`. -/
theorem first_complete_event_full_duration_witness :
    procThread [] initThreadState [evMeta, evC, evP] =
      procThread (aset [] "C" "catC") ⟨20, [evC], [("C", 20)], []⟩ [evP] :=
  first_complete_event_full_duration [] [evMeta] [evP] evC 10 20 "C" "catC"
    (by
      intro x hx
      simp only [List.mem_singleton] at hx
      subst hx
      exact ⟨"M", rfl, by decide⟩)
    rfl rfl rfl rfl rfl

/-- C10: whenever `get_times` returns normally, every event name holding an
accumulated self-time in the returned table also has an entry in the
returned category mapping (the `cat` field is read, unguarded, before any
self-time is accumulated under the name), so the category lookup of
`create_event_objects` never fails on a table produced by `get_times`; and a
Complete event lacking `cat` makes `get_times` itself fail with a
key-lookup error before any aggregation. -/
theorem categories_cover_selftime_table
    (threads : List (String × List Event))
    (tbl : List (String × List (String × Int)))
    (cats : List (String × String))
    (h : get_times threads = .ok (tbl, cats)) :
    (∀ p ∈ tbl, ∀ n ∈ (p.2 : List (String × Int)).map Prod.fst,
      (alookup cats n).isSome) ∧
    (∃ objs, create_event_objects (tbl, cats) = .ok objs) ∧
    get_times [("t", [evNoCat])] = .error .keyError := by
  rw [get_times] at h
  have htbl := get_times_loop_tbl threads h (by intro p hp; simp at hp)
  exact ⟨htbl, allThreadObjects_isOk cats tbl htbl, rfl⟩

/-- Witness for C10 on the child/parent input: the name `"C"` of the
produced table has a category entry, and aggregation succeeds. -/
theorem categories_cover_selftime_table_witness :
    (alookup [("C", "catC"), ("P", "catP")] "C").isSome ∧
    create_event_objects ([("t", [("C", 20), ("P", 80)])],
        [("C", "catC"), ("P", "catP")]) =
      .ok [{ EVENT_NAME := "C", CATEGORY := "catC", THREAD := "t"
             TIME_TAKEN := ((20 : Int) : ℚ) / 1000000 },
           { EVENT_NAME := "P", CATEGORY := "catP", THREAD := "t"
             TIME_TAKEN := ((80 : Int) : ℚ) / 1000000 }] :=
  ⟨(categories_cover_selftime_table [("t", [evC, evP])]
      [("t", [("C", 20), ("P", 80)])] [("C", "catC"), ("P", "catP")]
      rfl).1 ("t", [("C", 20), ("P", 80)]) (by simp) "C" (by simp), rfl⟩

/-- C9: for a table with distinct thread ids and per-thread distinct names,
`create_event_objects` emits exactly one OutputRecord per (thread id, event
name) pair holding an accumulated self-time — filtering the output on the
pair yields a single record — with `TIME_TAKEN` equal to the accumulated
microseconds divided by 1,000,000 and the category looked up by name; the
same name on two different threads thus yields two separate records, one
per thread, never a merged sum. -/
theorem aggregator_one_record_per_pair
    (tbl : List (String × List (String × Int)))
    (cats : List (String × String)) (objs : List OutputRecord)
    (tid : String) (times : List (String × Int)) (n : String) (t : Int)
    (hth : (tbl.map Prod.fst).Nodup)
    (hnm : ∀ p ∈ tbl, ((p.2 : List (String × Int)).map Prod.fst).Nodup)
    (hok : create_event_objects (tbl, cats) = .ok objs)
    (hmem : (tid, times) ∈ tbl) (hnt : (n, t) ∈ times) :
    ∃ c, alookup cats n = some c ∧
      objs.filter (fun r => r.THREAD = tid ∧ r.EVENT_NAME = n) =
        [{ EVENT_NAME := n, CATEGORY := c, THREAD := tid
           TIME_TAKEN := (t : ℚ) / 1000000 }] :=
  allThreadObjects_filter cats tbl objs hok hth hnm tid times hmem n t hnt

/-- Witness for C9 at the spec's two-thread example: self-times 80 and 20
for the same name `"E"` on threads `"t1"` and `"t2"` yield two separate
records, and filtering on (`"t1"`, `"E"`) returns exactly the 80µs one. -/
theorem aggregator_one_record_per_pair_witness :
    alookup [("E", "c")] "E" = some "c" ∧
      List.filter (fun r : OutputRecord => r.THREAD = "t1" ∧ r.EVENT_NAME = "E")
        [{ EVENT_NAME := "E", CATEGORY := "c", THREAD := "t1"
           TIME_TAKEN := ((80 : Int) : ℚ) / 1000000 },
         { EVENT_NAME := "E", CATEGORY := "c", THREAD := "t2"
           TIME_TAKEN := ((20 : Int) : ℚ) / 1000000 }] =
      [{ EVENT_NAME := "E", CATEGORY := "c", THREAD := "t1"
         TIME_TAKEN := ((80 : Int) : ℚ) / 1000000 }] := by
  obtain ⟨c, hc, hf⟩ := aggregator_one_record_per_pair
    [("t1", [("E", 80)]), ("t2", [("E", 20)])] [("E", "c")]
    [{ EVENT_NAME := "E", CATEGORY := "c", THREAD := "t1"
       TIME_TAKEN := ((80 : Int) : ℚ) / 1000000 },
     { EVENT_NAME := "E", CATEGORY := "c", THREAD := "t2"
       TIME_TAKEN := ((20 : Int) : ℚ) / 1000000 }]
    "t1" [("E", 80)] "E" 80 (by decide) (by decide) rfl (by decide) (by decide)
  have hcc : some "c" = some c := hc
  obtain rfl := (Option.some.inj hcc).symm
  exact ⟨hc, hf⟩

/-- Witness for C8's amended theorem at a concrete metadata event. -/
theorem non_complete_events_skipped_witness :
    get_times [("t", [evMeta])] = .ok ([("t", [])], []) :=
  non_complete_events_skipped "t" [evMeta] (by
    intro e he
    simp only [List.mem_singleton] at he
    subst he
    exact ⟨"M", rfl, by decide⟩)

end BuildProfile
